import Mathlib

/-!
Shallow embedding of the regen string generator (src/regen.go).

regen parses a regular expression with the Go regexp/syntax package and walks
the resulting op tree, emitting a random string that should match the
pattern.  The embedding below models:

* the AST node type (`Regexp`, mirroring the fields of `syntax.Regexp`
  that `GenString` reads: `Op`, `Sub`, `Rune`, `Min`, `Max`; runes are
  integer code points, the output buffer is the list of emitted code
  points);
* the entropy source as an oracle `Nat → Nat` threaded by index: `randint`
  consumes one oracle value per draw and reduces it into `[0, max)`,
  matching the contract of `crypto/rand.Int` (uniform in `[0, max)`);
* Go panics and the `io.EOF` early-termination signal as an explicit
  `Signal` result (`GenString` in the source only ever returns `nil` or
  `io.EOF`; panics unwind through every frame).
-/

namespace Regen

/-- The `regexp/syntax` operator kinds handled by the switch in `GenString`. -/
inductive Op where
  | OpNoMatch
  | OpEmptyMatch
  | OpLiteral
  | OpCharClass
  | OpAnyCharNotNL
  | OpAnyChar
  | OpBeginLine
  | OpEndLine
  | OpBeginText
  | OpEndText
  | OpWordBoundary
  | OpNoWordBoundary
  | OpStar
  | OpPlus
  | OpQuest
  | OpRepeat
  | OpConcat
  | OpCapture
  | OpAlternate
deriving DecidableEq, Repr

/-- A `regexp/syntax.Regexp` node as read by `GenString`: operator, ordered
    subexpressions, rune data (the code points of a literal, or the flattened
    list of inclusive lo/hi range pairs of a character class), and the
    `{min,max}` bounds of `OpRepeat` (`max = -1` meaning unbounded). -/
inductive Regexp where
  | mk (op : Op) (sub : List Regexp) (rune : List Int) (min : Int) (max : Int)
deriving Repr

/-- Outcome of one `GenString` call: `ok` is a `nil` error (Continue),
    `eof` is `io.EOF` (the Stop signal), `panicked` is a Go panic
    unwinding with the given message. -/
inductive Signal where
  | ok
  | eof
  | panicked (msg : String)
deriving DecidableEq, Repr

/-- The selector `randint` from src/regen.go.  `none` models the `panic` on `max < 0`;
    `max ≤ 1` returns `0` without touching the entropy source; otherwise
    one value is drawn from the oracle (advancing the stream index) and
    reduced into `[0, max)`, which is the distribution contract of
    `crypto/rand.Int(rand.Reader, max)`. -/
def randint (o : Nat → Nat) (idx : Nat) (max : Int) : Option (Int × Nat) :=
  if max < 0 then none
  else if max ≤ 1 then some (0, idx)
  else some (Int.ofNat (o idx) % max, idx + 1)

/-- First loop of the `OpCharClass` case: `sum += 1 + (Rune[i+1]-Rune[i])`
    over consecutive pairs.  `none` models the index-out-of-range panic Go
    raises when the rune list has odd length. -/
def classSum : List Int → Option Int
  | [] => some 0
  | lo :: hi :: rest => (classSum rest).map (fun s => 1 + (hi - lo) + s)
  | [_] => none

/-- Second loop of the `OpCharClass` case: scan the range pairs for the one
    containing ordinal `nth` and emit `lo + nth` at that point; `none`
    models falling through to `panic("unreachable")` (or the Go index panic
    on an odd-length tail). -/
def classScan (nth : Int) : List Int → Option Int
  | lo :: hi :: rest =>
      if nth ≤ hi - lo then some (lo + nth)
      else classScan (nth - (1 + (hi - lo))) rest
  | _ => none

/-- Parser invariant on the rune list of a class: even length and each pair
    satisfies `lo ≤ hi`. -/
def ClassPairs : List Int → Bool
  | [] => true
  | lo :: hi :: rest => lo ≤ hi && ClassPairs rest
  | [_] => false

/-- Parser invariant: consecutive ranges are sorted and disjoint
    (`hi` of one range strictly below `lo` of the next). -/
def ClassSorted : List Int → Bool
  | _lo :: hi :: lo2 :: hi2 :: rest => hi < lo2 && ClassSorted (lo2 :: hi2 :: rest)
  | _ => true

/-- Membership of a code point in a class given by flattened range pairs. -/
def inClass (c : Int) : List Int → Bool
  | lo :: hi :: rest => (lo ≤ c && c ≤ hi) || inClass c rest
  | _ => false

mutual

/-- The generator `GenString` from src/regen.go: interpret one AST node, appending the
    emitted code points to `w` and threading the entropy-stream index.
    Each arm mirrors the corresponding `case` of the Go switch; results
    carry the buffer, the index, and the returned error / panic. -/
def GenString (o : Nat → Nat) (ub : Int) (w : List Int) (idx : Nat) :
    Regexp → List Int × Nat × Signal
  | .mk op sub rune mn mx =>
    match op with
    | .OpNoMatch => (w, idx, .ok)
    | .OpEmptyMatch => (w, idx, .ok)
    | .OpLiteral => (w ++ rune, idx, .ok)
    | .OpCharClass =>
      match classSum rune with
      | none => (w, idx, .panicked ("index out of range"))
      | some sum =>
        match randint o idx sum with
        | none => (w, idx, .panicked ("randint: max < 0"))
        | some (nth, idx1) =>
          match classScan nth rune with
          | some ch => (w ++ [ch], idx1, .ok)
          | none => (w, idx1, .panicked ("unreachable"))
    | .OpAnyCharNotNL =>
      match randint o idx 95 with
      | some (r, idx1) => (w ++ [32 + r], idx1, .ok)
      | none => (w, idx, .panicked ("randint: max < 0"))
    | .OpAnyChar =>
      match randint o idx 96 with
      | some (i, idx1) => (w ++ [if i = 95 then 10 else 32 + i], idx1, .ok)
      | none => (w, idx, .panicked ("randint: max < 0"))
    | .OpBeginLine =>
      if w.length ≠ 0 then (w ++ [10], idx, .ok) else (w, idx, .ok)
    | .OpEndLine =>
      if w.length ≠ 0 then (w ++ [10], idx, .ok) else (w, idx, .eof)
    | .OpBeginText => (w, idx, .ok)
    | .OpEndText => (w, idx, .eof)
    | .OpWordBoundary => (w, idx, .panicked ("regen: word boundaries not supported yet"))
    | .OpNoWordBoundary => (w, idx, .panicked ("regen: word boundaries not supported yet"))
    | .OpStar =>
      match randint o idx ((0 + ub) - 0 + 1) with
      | some (c, idx1) => genRepStar o ub w idx1 (0 + c).toNat sub
      | none => (w, idx, .panicked ("randint: max < 0"))
    | .OpPlus =>
      match randint o idx ((1 + ub) - 1 + 1) with
      | some (c, idx1) => genRepStar o ub w idx1 (1 + c).toNat sub
      | none => (w, idx, .panicked ("randint: max < 0"))
    | .OpQuest =>
      match randint o idx 0xFFFFFFFF with
      | some (r, idx1) =>
        if 0x7FFFFFFF < r then genSub o ub w idx1 sub else (w, idx1, .ok)
      | none => (w, idx, .panicked ("randint: max < 0"))
    | .OpRepeat =>
      match randint o idx ((if mx = -1 then mn + ub else mx) - mn + 1) with
      | some (c, idx1) => genRep o ub w idx1 (mn + c).toNat sub
      | none => (w, idx, .panicked ("randint: max < 0"))
    | .OpConcat => genSub o ub w idx sub
    | .OpCapture => genSub o ub w idx sub
    | .OpAlternate =>
      match randint o idx (Int.ofNat sub.length) with
      | some (nth, idx1) =>
        match h : sub.get? nth.toNat with
        | some r => GenString o ub w idx1 r
        | none => (w, idx1, .panicked ("index out of range"))
      | none => (w, idx, .panicked ("randint: max < 0"))
termination_by rx => (sizeOf rx, 0)
decreasing_by
  all_goals simp_wf
  all_goals try (apply Prod.Lex.left; omega)
  all_goals apply Prod.Lex.left
  all_goals have hm := List.sizeOf_lt_of_mem (List.get?_mem h)
  all_goals omega

/-- The child loop of `OpConcat` / `OpCapture` / `OpQuest` / `OpRepeat`:
    `if err := GenString(w, rx); err != nil { return err }` — generate the
    children in order and return the first non-nil error immediately. -/
def genSub (o : Nat → Nat) (ub : Int) (w : List Int) (idx : Nat) :
    List Regexp → List Int × Nat × Signal
  | [] => (w, idx, .ok)
  | r :: rest =>
    match GenString o ub w idx r with
    | (w1, idx1, .ok) => genSub o ub w1 idx1 rest
    | out => out
termination_by rxs => (sizeOf rxs, 0)
decreasing_by
  all_goals simp_wf
  all_goals apply Prod.Lex.left
  all_goals omega

/-- The child loop of `OpStar` / `OpPlus`: `GenString(w, rx)` with the
    returned error discarded — only a panic unwinds; `io.EOF` from a child
    is ignored and the loop moves to the next child. -/
def genSubStar (o : Nat → Nat) (ub : Int) (w : List Int) (idx : Nat) :
    List Regexp → List Int × Nat × Signal
  | [] => (w, idx, .ok)
  | r :: rest =>
    match GenString o ub w idx r with
    | (w1, idx1, .panicked m) => (w1, idx1, .panicked m)
    | (w1, idx1, _) => genSubStar o ub w1 idx1 rest
termination_by rxs => (sizeOf rxs, 0)
decreasing_by
  all_goals simp_wf
  all_goals apply Prod.Lex.left
  all_goals omega

/-- The counted outer loop of `OpRepeat` (`for sz ...; sz > 0; sz--`),
    whose body propagates child errors. -/
def genRep (o : Nat → Nat) (ub : Int) (w : List Int) (idx : Nat) :
    Nat → List Regexp → List Int × Nat × Signal
  | 0, _ => (w, idx, .ok)
  | sz + 1, rxs =>
    match genSub o ub w idx rxs with
    | (w1, idx1, .ok) => genRep o ub w1 idx1 sz rxs
    | out => out
termination_by sz rxs => (sizeOf rxs, sz + 1)
decreasing_by
  all_goals simp_wf
  all_goals apply Prod.Lex.right
  all_goals omega

/-- The counted outer loop of `OpStar` / `OpPlus`, whose body ignores
    child errors (only a panic stops it). -/
def genRepStar (o : Nat → Nat) (ub : Int) (w : List Int) (idx : Nat) :
    Nat → List Regexp → List Int × Nat × Signal
  | 0, _ => (w, idx, .ok)
  | sz + 1, rxs =>
    match genSubStar o ub w idx rxs with
    | (w1, idx1, .panicked m) => (w1, idx1, .panicked m)
    | (w1, idx1, _) => genRepStar o ub w1 idx1 sz rxs
termination_by sz rxs => (sizeOf rxs, sz + 1)
decreasing_by
  all_goals simp_wf
  all_goals apply Prod.Lex.right
  all_goals omega

end

/-- Running the error-propagating child loop over `l1 ++ l2` first runs it
    over `l1`; if that ends with a nil error it continues into `l2` from
    the reached state. -/
theorem genSub_append_ok (o : Nat → Nat) (ub : Int) :
    ∀ (l1 l2 : List Regexp) (w w1 : List Int) (idx idx1 : Nat),
      genSub o ub w idx l1 = (w1, idx1, .ok) →
      genSub o ub w idx (l1 ++ l2) = genSub o ub w1 idx1 l2 := by
  intro l1
  induction l1 with
  | nil =>
    intro l2 w w1 idx idx1 h
    simp only [genSub, Prod.mk.injEq] at h
    obtain ⟨rfl, rfl, -⟩ := h
    simp [genSub]
  | cons r rest ih =>
    intro l2 w w1 idx idx1 h
    simp only [List.cons_append, genSub] at h ⊢
    rcases hG : GenString o ub w idx r with ⟨w2, idx2, s2⟩
    rw [hG] at h
    cases s2 with
    | ok => exact ih l2 w2 w1 idx2 idx1 h
    | eof => simp at h
    | panicked m => simp at h

/-- If the error-propagating child loop over `l1` ends with a non-nil
    error, appending further children does not change the outcome. -/
theorem genSub_append_stop (o : Nat → Nat) (ub : Int) :
    ∀ (l1 l2 : List Regexp) (w w1 : List Int) (idx idx1 : Nat) (s : Signal),
      genSub o ub w idx l1 = (w1, idx1, s) → s ≠ .ok →
      genSub o ub w idx (l1 ++ l2) = (w1, idx1, s) := by
  intro l1
  induction l1 with
  | nil =>
    intro l2 w w1 idx idx1 s h hs
    simp only [genSub, Prod.mk.injEq] at h
    exact absurd h.2.2.symm hs
  | cons r rest ih =>
    intro l2 w w1 idx idx1 s h hs
    simp only [List.cons_append, genSub] at h ⊢
    rcases hG : GenString o ub w idx r with ⟨w2, idx2, s2⟩
    rw [hG] at h
    cases s2 with
    | ok => exact ih l2 w2 w1 idx2 idx1 s h hs
    | eof => exact h
    | panicked m => exact h

/-- A canonical zero-or-one node: `x?` with one literal child `x` (0x78). -/
def questNode : Regexp := .mk .OpQuest [.mk .OpLiteral [] [120] 0 0] [] 0 0

/-- Whether selector value `v` makes the zero-or-one node generate its
    child: the coin flip `randint(0xFFFFFFFF) > 0x7FFFFFFF` taken by
    `GenString`, observed through the emitted output. -/
def questSelects (v : Nat) : Prop :=
  GenString (fun _ => v) 32 [] 0 questNode = ([120], 1, .ok)

instance : DecidablePred questSelects := fun v =>
  inferInstanceAs (Decidable (GenString (fun _ => v) 32 [] 0 questNode = ([120], 1, .ok)))

/-- Induction on a flattened range-pair list, two elements at a time. -/
theorem pairs_ind (P : List Int → Prop) (h0 : P []) (h1 : ∀ x, P [x])
    (h2 : ∀ lo hi rest, P rest → P (lo :: hi :: rest)) : ∀ rs, P rs
  | [] => h0
  | [x] => h1 x
  | lo :: hi :: rest => h2 lo hi rest (pairs_ind P h0 h1 h2 rest)

/-- Under the parser invariant, the total class size is non-negative. -/
theorem classSum_nonneg :
    ∀ rs, ClassPairs rs = true → ∀ S, classSum rs = some S → 0 ≤ S := by
  refine pairs_ind _ ?_ ?_ ?_
  · intro _ S hS
    simp [classSum] at hS
    omega
  · intro x hP
    simp [ClassPairs] at hP
  · intro lo hi rest IH hP S hS
    simp only [ClassPairs, Bool.and_eq_true, decide_eq_true_eq] at hP
    rcases hrest : classSum rest with - | S'
    · rw [classSum, hrest] at hS
      simp at hS
    · rw [classSum, hrest] at hS
      simp only [Option.map_some', Option.some.injEq] at hS
      have := IH hP.2 S' hrest
      omega

/-- Under the parser invariant, a non-empty class has at least one member. -/
theorem classSum_pos :
    ∀ rs, ClassPairs rs = true → rs ≠ [] → ∀ S, classSum rs = some S → 1 ≤ S := by
  refine pairs_ind _ ?_ ?_ ?_
  · intro _ hne
    exact absurd rfl hne
  · intro x hP
    simp [ClassPairs] at hP
  · intro lo hi rest IH hP _ S hS
    simp only [ClassPairs, Bool.and_eq_true, decide_eq_true_eq] at hP
    rcases hrest : classSum rest with - | S'
    · rw [classSum, hrest] at hS
      simp at hS
    · rw [classSum, hrest] at hS
      simp only [Option.map_some', Option.some.injEq] at hS
      have := classSum_nonneg rest hP.2 S' hrest
      omega

/-- The linear scan finds a range for every ordinal below the total size,
    and the emitted code point is a member of the class. -/
theorem classScan_found :
    ∀ rs, ClassPairs rs = true → ∀ S, classSum rs = some S →
      ∀ k : Int, 0 ≤ k → k < S →
        ∃ c, classScan k rs = some c ∧ inClass c rs = true := by
  refine pairs_ind _ ?_ ?_ ?_
  · intro _ S hS k hk0 hkS
    simp [classSum] at hS
    omega
  · intro x hP
    simp [ClassPairs] at hP
  · intro lo hi rest IH hP S hS k hk0 hkS
    simp only [ClassPairs, Bool.and_eq_true, decide_eq_true_eq] at hP
    rcases hrest : classSum rest with - | S'
    · rw [classSum, hrest] at hS
      simp at hS
    · rw [classSum, hrest] at hS
      simp only [Option.map_some', Option.some.injEq] at hS
      by_cases hk : k ≤ hi - lo
      · refine ⟨lo + k, by simp [classScan, hk], ?_⟩
        simp only [inClass, Bool.or_eq_true, Bool.and_eq_true, decide_eq_true_eq]
        exact Or.inl ⟨by omega, by omega⟩
      · obtain ⟨c, hscan, hin⟩ :=
          IH hP.2 S' hrest (k - (1 + (hi - lo))) (by omega) (by omega)
        refine ⟨c, by simp [classScan, hk, hscan], ?_⟩
        simp [inClass, hin]

/-- The scan only ever emits a member of the class. -/
theorem classScan_mem :
    ∀ rs, ClassPairs rs = true →
      ∀ (k c : Int), 0 ≤ k → classScan k rs = some c → inClass c rs = true := by
  refine pairs_ind _ ?_ ?_ ?_
  · intro _ k c _ hscan
    simp [classScan] at hscan
  · intro x hP
    simp [ClassPairs] at hP
  · intro lo hi rest IH hP k c hk0 hscan
    simp only [ClassPairs, Bool.and_eq_true, decide_eq_true_eq] at hP
    by_cases hk : k ≤ hi - lo
    · rw [classScan, if_pos hk] at hscan
      simp only [Option.some.injEq] at hscan
      simp only [inClass, Bool.or_eq_true, Bool.and_eq_true, decide_eq_true_eq]
      exact Or.inl ⟨by omega, by omega⟩
    · rw [classScan, if_neg hk] at hscan
      have := IH hP.2 (k - (1 + (hi - lo))) c (by omega) hscan
      simp [inClass, this]

/-- With sorted, disjoint ranges, every class member is at least the lower
    bound of the first range. -/
theorem inClass_lower :
    ∀ rs, ClassPairs rs = true → ClassSorted rs = true →
      ∀ lo hi rest, rs = lo :: hi :: rest →
        ∀ c : Int, inClass c rs = true → lo ≤ c := by
  refine pairs_ind _ ?_ ?_ ?_
  · intro _ _ lo hi rest h
    cases h
  · intro x hP
    simp [ClassPairs] at hP
  · intro lo hi rest IH hP hSort lo' hi' rest' heq c hc
    simp only [List.cons.injEq] at heq
    obtain ⟨rfl, rfl, rfl⟩ := heq
    simp only [ClassPairs, Bool.and_eq_true, decide_eq_true_eq] at hP
    simp only [inClass, Bool.or_eq_true, Bool.and_eq_true, decide_eq_true_eq] at hc
    rcases hc with hc | hc
    · exact hc.1
    · rcases rest with - | ⟨lo2, rest1⟩
      · simp [inClass] at hc
      · rcases rest1 with - | ⟨hi2, rest2⟩
        · simp [inClass] at hc
        · simp only [ClassSorted, Bool.and_eq_true, decide_eq_true_eq] at hSort
          have := IH hP.2 hSort.2 lo2 hi2 rest2 rfl c hc
          omega

/-- With sorted, disjoint ranges, distinct ordinals scan to distinct
    characters (the ordinal-to-member map is injective). -/
theorem classScan_inj :
    ∀ rs, ClassPairs rs = true → ClassSorted rs = true →
      ∀ (k1 k2 c : Int), 0 ≤ k1 → 0 ≤ k2 →
        classScan k1 rs = some c → classScan k2 rs = some c → k1 = k2 := by
  refine pairs_ind _ ?_ ?_ ?_
  · intro _ _ k1 k2 c _ _ h1 _
    simp [classScan] at h1
  · intro x hP
    simp [ClassPairs] at hP
  · intro lo hi rest IH hP hSort k1 k2 c hk1 hk2 h1 h2
    simp only [ClassPairs, Bool.and_eq_true, decide_eq_true_eq] at hP
    have hSort' : ClassSorted rest = true := by
      rcases rest with - | ⟨lo2, rest1⟩
      · rfl
      · rcases rest1 with - | ⟨hi2, rest2⟩
        · rfl
        · simp only [ClassSorted, Bool.and_eq_true] at hSort
          exact hSort.2
    by_cases ha : k1 ≤ hi - lo <;> by_cases hb : k2 ≤ hi - lo
    · rw [classScan, if_pos ha] at h1
      rw [classScan, if_pos hb] at h2
      simp only [Option.some.injEq] at h1 h2
      omega
    · rw [classScan, if_pos ha] at h1
      rw [classScan, if_neg hb] at h2
      simp only [Option.some.injEq] at h1
      have hmem := classScan_mem rest hP.2 (k2 - (1 + (hi - lo))) c (by omega) h2
      rcases rest with - | ⟨lo2, rest1⟩
      · simp [inClass] at hmem
      · rcases rest1 with - | ⟨hi2, rest2⟩
        · simp [inClass] at hmem
        · simp only [ClassSorted, Bool.and_eq_true, decide_eq_true_eq] at hSort
          have := inClass_lower (lo2 :: hi2 :: rest2) hP.2 hSort.2 lo2 hi2 rest2 rfl c hmem
          omega
    · rw [classScan, if_neg ha] at h1
      rw [classScan, if_pos hb] at h2
      simp only [Option.some.injEq] at h2
      have hmem := classScan_mem rest hP.2 (k1 - (1 + (hi - lo))) c (by omega) h1
      rcases rest with - | ⟨lo2, rest1⟩
      · simp [inClass] at hmem
      · rcases rest1 with - | ⟨hi2, rest2⟩
        · simp [inClass] at hmem
        · simp only [ClassSorted, Bool.and_eq_true, decide_eq_true_eq] at hSort
          have := inClass_lower (lo2 :: hi2 :: rest2) hP.2 hSort.2 lo2 hi2 rest2 rfl c hmem
          omega
    · rw [classScan, if_neg ha] at h1
      rw [classScan, if_neg hb] at h2
      have := IH hP.2 hSort' (k1 - (1 + (hi - lo))) (k2 - (1 + (hi - lo))) c
        (by omega) (by omega) h1 h2
      omega

/-- Every class member is reached by some ordinal below the total size. -/
theorem classScan_surj :
    ∀ rs, ClassPairs rs = true → ∀ S, classSum rs = some S →
      ∀ c : Int, inClass c rs = true →
        ∃ k, 0 ≤ k ∧ k < S ∧ classScan k rs = some c := by
  refine pairs_ind _ ?_ ?_ ?_
  · intro _ S hS c hc
    simp [inClass] at hc
  · intro x hP
    simp [ClassPairs] at hP
  · intro lo hi rest IH hP S hS c hc
    simp only [ClassPairs, Bool.and_eq_true, decide_eq_true_eq] at hP
    rcases hrest : classSum rest with - | S'
    · rw [classSum, hrest] at hS
      simp at hS
    · rw [classSum, hrest] at hS
      simp only [Option.map_some', Option.some.injEq] at hS
      have hS'0 := classSum_nonneg rest hP.2 S' hrest
      simp only [inClass, Bool.or_eq_true, Bool.and_eq_true, decide_eq_true_eq] at hc
      rcases hc with hc | hc
      · refine ⟨c - lo, by omega, by omega, ?_⟩
        rw [classScan, if_pos (by omega)]
        congr 1
        omega
      · obtain ⟨k', hk'0, hk'S, hscan'⟩ := IH hP.2 S' hrest c hc
        refine ⟨k' + (1 + (hi - lo)), by omega, by omega, ?_⟩
        rw [classScan, if_neg (by omega)]
        rw [show k' + (1 + (hi - lo)) - (1 + (hi - lo)) = k' by omega]
        exact hscan'

/-- For a positive bound, `randint` yields a draw in `[0, S)`. -/
theorem randint_range (o : Nat → Nat) (idx : Nat) (S : Int) (hS : 1 ≤ S) :
    ∃ nth idx1, randint o idx S = some (nth, idx1) ∧ 0 ≤ nth ∧ nth < S := by
  by_cases h1 : S ≤ 1
  · refine ⟨0, idx, ?_, le_rfl, by omega⟩
    unfold randint
    rw [if_neg (by omega), if_pos h1]
  · refine ⟨Int.ofNat (o idx) % S, idx + 1, ?_, ?_, ?_⟩
    · unfold randint
      rw [if_neg (by omega), if_neg h1]
    · exact Int.emod_nonneg _ (by omega)
    · exact Int.emod_lt_of_pos _ (by omega)

/-- For a well-formed non-empty class, `GenString` draws an ordinal below
    the total size, scans for its range, and emits exactly that one
    character with a nil error. -/
theorem genString_charclass (o : Nat → Nat) (ub : Int) (w : List Int) (idx : Nat)
    (sub : List Regexp) (mn mx : Int) (rs : List Int) (S : Int)
    (hP : ClassPairs rs = true) (hne : rs ≠ []) (hS : classSum rs = some S) :
    ∃ nth c idx1,
      randint o idx S = some (nth, idx1) ∧ 0 ≤ nth ∧ nth < S ∧
      classScan nth rs = some c ∧
      GenString o ub w idx (.mk .OpCharClass sub rs mn mx) = (w ++ [c], idx1, .ok) := by
  have hS1 := classSum_pos rs hP hne S hS
  obtain ⟨nth, idx1, hrand, h0, hlt⟩ := randint_range o idx S hS1
  obtain ⟨c, hscan, -⟩ := classScan_found rs hP S hS nth h0 hlt
  exact ⟨nth, c, idx1, hrand, h0, hlt, hscan, by simp [GenString, hS, hrand, hscan]⟩

/-- If every node of `rxs` only appends to the buffer, so does the
    error-propagating child loop. -/
theorem genSub_appends (o : Nat → Nat) (ub : Int) :
    ∀ (rxs : List Regexp),
      (∀ r ∈ rxs, ∀ (w : List Int) (idx : Nat), ∃ t, (GenString o ub w idx r).1 = w ++ t) →
      ∀ (w : List Int) (idx : Nat), ∃ t, (genSub o ub w idx rxs).1 = w ++ t := by
  intro rxs
  induction rxs with
  | nil => exact fun _ w idx => ⟨[], by simp [genSub]⟩
  | cons r rest ih =>
    intro hall w idx
    obtain ⟨t1, ht1⟩ := hall r (by simp) w idx
    simp only [genSub]
    rcases hG : GenString o ub w idx r with ⟨w1, idx1, s1⟩
    rw [hG] at ht1
    simp only at ht1
    cases s1 with
    | ok =>
      obtain ⟨t2, ht2⟩ := ih (fun r' hr' => hall r' (by simp [hr'])) w1 idx1
      refine ⟨t1 ++ t2, ?_⟩
      show (genSub o ub w1 idx1 rest).1 = _
      rw [ht2, ht1, List.append_assoc]
    | eof => exact ⟨t1, ht1⟩
    | panicked m => exact ⟨t1, ht1⟩

/-- If every node of `rxs` only appends to the buffer, so does the
    error-ignoring child loop of star/plus. -/
theorem genSubStar_appends (o : Nat → Nat) (ub : Int) :
    ∀ (rxs : List Regexp),
      (∀ r ∈ rxs, ∀ (w : List Int) (idx : Nat), ∃ t, (GenString o ub w idx r).1 = w ++ t) →
      ∀ (w : List Int) (idx : Nat), ∃ t, (genSubStar o ub w idx rxs).1 = w ++ t := by
  intro rxs
  induction rxs with
  | nil => exact fun _ w idx => ⟨[], by simp [genSubStar]⟩
  | cons r rest ih =>
    intro hall w idx
    obtain ⟨t1, ht1⟩ := hall r (by simp) w idx
    simp only [genSubStar]
    rcases hG : GenString o ub w idx r with ⟨w1, idx1, s1⟩
    rw [hG] at ht1
    simp only at ht1
    have hrest : ∀ (w' : List Int) (idx' : Nat),
        ∃ t, (genSubStar o ub w' idx' rest).1 = w' ++ t :=
      ih (fun r' hr' => hall r' (by simp [hr']))
    cases s1 with
    | ok =>
      obtain ⟨t2, ht2⟩ := hrest w1 idx1
      refine ⟨t1 ++ t2, ?_⟩
      show (genSubStar o ub w1 idx1 rest).1 = _
      rw [ht2, ht1, List.append_assoc]
    | eof =>
      obtain ⟨t2, ht2⟩ := hrest w1 idx1
      refine ⟨t1 ++ t2, ?_⟩
      show (genSubStar o ub w1 idx1 rest).1 = _
      rw [ht2, ht1, List.append_assoc]
    | panicked m => exact ⟨t1, ht1⟩

/-- Append-only property lifted through the counted error-propagating
    repeat loop. -/
theorem genRep_appends (o : Nat → Nat) (ub : Int) (rxs : List Regexp)
    (hall : ∀ (w : List Int) (idx : Nat), ∃ t, (genSub o ub w idx rxs).1 = w ++ t) :
    ∀ (sz : Nat) (w : List Int) (idx : Nat),
      ∃ t, (genRep o ub w idx sz rxs).1 = w ++ t := by
  intro sz
  induction sz with
  | zero => exact fun w idx => ⟨[], by simp [genRep]⟩
  | succ sz ih =>
    intro w idx
    obtain ⟨t1, ht1⟩ := hall w idx
    simp only [genRep]
    rcases hS : genSub o ub w idx rxs with ⟨w1, idx1, s1⟩
    rw [hS] at ht1
    simp only at ht1
    cases s1 with
    | ok =>
      obtain ⟨t2, ht2⟩ := ih w1 idx1
      refine ⟨t1 ++ t2, ?_⟩
      show (genRep o ub w1 idx1 sz rxs).1 = _
      rw [ht2, ht1, List.append_assoc]
    | eof => exact ⟨t1, ht1⟩
    | panicked m => exact ⟨t1, ht1⟩

/-- Append-only property lifted through the counted error-ignoring
    star/plus loop. -/
theorem genRepStar_appends (o : Nat → Nat) (ub : Int) (rxs : List Regexp)
    (hall : ∀ (w : List Int) (idx : Nat), ∃ t, (genSubStar o ub w idx rxs).1 = w ++ t) :
    ∀ (sz : Nat) (w : List Int) (idx : Nat),
      ∃ t, (genRepStar o ub w idx sz rxs).1 = w ++ t := by
  intro sz
  induction sz with
  | zero => exact fun w idx => ⟨[], by simp [genRepStar]⟩
  | succ sz ih =>
    intro w idx
    obtain ⟨t1, ht1⟩ := hall w idx
    simp only [genRepStar]
    rcases hS : genSubStar o ub w idx rxs with ⟨w1, idx1, s1⟩
    rw [hS] at ht1
    simp only at ht1
    cases s1 with
    | ok =>
      obtain ⟨t2, ht2⟩ := ih w1 idx1
      refine ⟨t1 ++ t2, ?_⟩
      show (genRepStar o ub w1 idx1 sz rxs).1 = _
      rw [ht2, ht1, List.append_assoc]
    | eof =>
      obtain ⟨t2, ht2⟩ := ih w1 idx1
      refine ⟨t1 ++ t2, ?_⟩
      show (genRepStar o ub w1 idx1 sz rxs).1 = _
      rw [ht2, ht1, List.append_assoc]
    | panicked m => exact ⟨t1, ht1⟩

/-- C9: generation is append-only — for every node and every starting
    buffer, the buffer after the call (whether it ends in Continue, Stop,
    or a panic) is the starting buffer followed by the newly emitted
    characters; nothing already written is removed or altered. -/
theorem c9_append_only :
    ∀ (rx : Regexp) (o : Nat → Nat) (ub : Int) (w : List Int) (idx : Nat),
      ∃ t, (GenString o ub w idx rx).1 = w ++ t := by
  have key : ∀ (n : Nat) (rx : Regexp), sizeOf rx ≤ n →
      ∀ (o : Nat → Nat) (ub : Int) (w : List Int) (idx : Nat),
        ∃ t, (GenString o ub w idx rx).1 = w ++ t := by
    intro n
    induction n with
    | zero =>
      intro rx hsz
      exfalso
      obtain ⟨op, sub, ru, mn, mx⟩ := rx
      simp only [Regexp.mk.sizeOf_spec] at hsz
      omega
    | succ n ih =>
      intro rx hsz o ub w idx
      obtain ⟨op, sub, ru, mn, mx⟩ := rx
      have hsubsz : ∀ r ∈ sub, sizeOf r ≤ n := by
        intro r hr
        have h1 := List.sizeOf_lt_of_mem hr
        simp only [Regexp.mk.sizeOf_spec] at hsz
        omega
      have hsub : ∀ r ∈ sub, ∀ (w : List Int) (idx : Nat),
          ∃ t, (GenString o ub w idx r).1 = w ++ t :=
        fun r hr => ih r (hsubsz r hr) o ub
      cases op with
      | OpNoMatch => exact ⟨[], by simp [GenString]⟩
      | OpEmptyMatch => exact ⟨[], by simp [GenString]⟩
      | OpLiteral => exact ⟨ru, by simp [GenString]⟩
      | OpCharClass =>
        simp only [GenString]
        split
        · exact ⟨[], by simp⟩
        · split
          · exact ⟨[], by simp⟩
          · split
            · exact ⟨_, rfl⟩
            · exact ⟨[], by simp⟩
      | OpAnyCharNotNL =>
        simp only [GenString]
        split
        · exact ⟨_, rfl⟩
        · exact ⟨[], by simp⟩
      | OpAnyChar =>
        simp only [GenString]
        split
        · exact ⟨_, rfl⟩
        · exact ⟨[], by simp⟩
      | OpBeginLine =>
        simp only [GenString]
        split
        · exact ⟨[10], rfl⟩
        · exact ⟨[], by simp⟩
      | OpEndLine =>
        simp only [GenString]
        split
        · exact ⟨[10], rfl⟩
        · exact ⟨[], by simp⟩
      | OpBeginText => exact ⟨[], by simp [GenString]⟩
      | OpEndText => exact ⟨[], by simp [GenString]⟩
      | OpWordBoundary => exact ⟨[], by simp [GenString]⟩
      | OpNoWordBoundary => exact ⟨[], by simp [GenString]⟩
      | OpStar =>
        simp only [GenString]
        split
        · exact genRepStar_appends o ub sub (genSubStar_appends o ub sub hsub) _ w _
        · exact ⟨[], by simp⟩
      | OpPlus =>
        simp only [GenString]
        split
        · exact genRepStar_appends o ub sub (genSubStar_appends o ub sub hsub) _ w _
        · exact ⟨[], by simp⟩
      | OpQuest =>
        simp only [GenString]
        split
        · split
          · exact genSub_appends o ub sub hsub w _
          · exact ⟨[], by simp⟩
        · exact ⟨[], by simp⟩
      | OpRepeat =>
        simp only [GenString]
        split
        · exact genRep_appends o ub sub (genSub_appends o ub sub hsub) _ w _
        · exact ⟨[], by simp⟩
      | OpConcat =>
        simp only [GenString]
        exact genSub_appends o ub sub hsub w idx
      | OpCapture =>
        simp only [GenString]
        exact genSub_appends o ub sub hsub w idx
      | OpAlternate =>
        simp only [GenString]
        split
        · split
          · rename_i r heq
            exact ih r (hsubsz r (List.get?_mem heq)) o ub w _
          · exact ⟨[], by simp⟩
        · exact ⟨[], by simp⟩
  exact fun rx => key (sizeOf rx) rx le_rfl

/-- C2: for a concatenation or capture node, children run in declared
    order, and as soon as one child returns Stop or panics the node
    returns that result — the remaining siblings (`rest`) contribute
    nothing, whatever they are. -/
theorem c2_concat_stop_short_circuits (o : Nat → Nat) (ub : Int) (op : Op)
    (pre rest : List Regexp) (r : Regexp) (ru : List Int) (mn mx : Int)
    (w w1 w2 : List Int) (i i1 i2 : Nat) (s : Signal)
    (hop : op = .OpConcat ∨ op = .OpCapture)
    (hpre : genSub o ub w i pre = (w1, i1, .ok))
    (hr : GenString o ub w1 i1 r = (w2, i2, s))
    (hs : s ≠ .ok) :
    GenString o ub w i (.mk op (pre ++ r :: rest) ru mn mx) = (w2, i2, s) := by
  have hcat : genSub o ub w i (pre ++ r :: rest) = (w2, i2, s) := by
    rw [genSub_append_ok o ub pre (r :: rest) w w1 i i1 hpre]
    simp only [genSub]
    rw [hr]
    cases s with
    | ok => exact absurd rfl hs
    | eof => rfl
    | panicked m => rfl
  rcases hop with h | h <;> subst h <;> simpa [GenString] using hcat

/-- Witness for C2: the concatenation `"ab" · end-of-text · "c"` emits
    only `"ab"` (0x61 0x62) and stops — the trailing `"c"` never appears. -/
theorem c2_concat_witness :
    GenString (fun _ => 0) 32 [] 0
      (.mk .OpConcat [.mk .OpLiteral [] [97, 98] 0 0, .mk .OpEndText [] [] 0 0,
        .mk .OpLiteral [] [99] 0 0] [] 0 0) = ([97, 98], 0, Signal.eof) :=
  c2_concat_stop_short_circuits (fun _ => 0) 32 .OpConcat
    [.mk .OpLiteral [] [97, 98] 0 0] [.mk .OpLiteral [] [99] 0 0]
    (.mk .OpEndText [] [] 0 0) [] 0 0 [] [97, 98] [97, 98] 0 0 0 .eof
    (Or.inl rfl) (by simp [genSub, GenString]) (by simp [GenString]) (by decide)

/-- C1: the `OpStar`/`OpPlus` loop in the code discards the error returned
    by `GenString` for each child, so a `Stop` (`io.EOF`) from a child
    neither aborts the current iteration nor the remaining ones.  On a
    star node whose children are end-of-text followed by the literal `c`
    (0x63), with the selector choosing two iterations, the generator
    emits `c` twice — after the end-of-text child signalled Stop — and
    returns Continue, contradicting the claimed propagate-first-Stop
    behavior (which the spec itself declares canonical, §9). -/
theorem c1_star_ignores_stop_failing_input :
    GenString (fun _ => 2) 32 [] 0
      (.mk .OpStar [.mk .OpEndText [] [] 0 0, .mk .OpLiteral [] [99] 0 0] [] 0 0)
      = ([99, 99], 1, Signal.ok) := by
  simp [GenString, genRepStar, genSubStar, randint]

/-- C5: an end-of-line node appends exactly one newline (code point 10)
    and returns Continue when the output buffer is non-empty, and emits
    nothing and returns Stop when the buffer is empty. -/
theorem c5_endline_newline_or_stop (o : Nat → Nat) (ub : Int) (w : List Int) (idx : Nat)
    (sub : List Regexp) (ru : List Int) (mn mx : Int) :
    (w ≠ [] → GenString o ub w idx (.mk .OpEndLine sub ru mn mx) = (w ++ [10], idx, .ok)) ∧
    (w = [] → GenString o ub w idx (.mk .OpEndLine sub ru mn mx) = (w, idx, .eof)) := by
  constructor
  · intro hw
    simp [GenString, List.length_eq_zero, hw]
  · intro hw
    subst hw
    simp [GenString]

/-- Witness for C5 at concrete inputs: buffer `[65]` gains a newline with
    Continue; the empty buffer stops with nothing emitted. -/
theorem c5_endline_witness :
    GenString (fun _ => 0) 32 [65] 0 (.mk .OpEndLine [] [] 0 0) = ([65, 10], 0, Signal.ok) ∧
    GenString (fun _ => 0) 32 [] 0 (.mk .OpEndLine [] [] 0 0) = ([], 0, Signal.eof) :=
  ⟨(c5_endline_newline_or_stop (fun _ => 0) 32 [65] 0 [] [] 0 0).1 (by decide),
   (c5_endline_newline_or_stop (fun _ => 0) 32 [] 0 [] [] 0 0).2 rfl⟩

/-- C7: `randint` returns `0` for `max = 0` and `max = 1` without
    consuming from the entropy stream (the index is unchanged), and for
    every `max > 1` it draws one value and returns a result in
    `[0, max)`, advancing the stream by one. -/
theorem c7_randint_contract (o : Nat → Nat) (idx : Nat) :
    randint o idx 0 = some (0, idx) ∧
    randint o idx 1 = some (0, idx) ∧
    (∀ n : Int, 1 < n →
      ∃ r, randint o idx n = some (r, idx + 1) ∧ 0 ≤ r ∧ r < n) := by
  refine ⟨by simp [randint], by simp [randint], ?_⟩
  intro n hn
  refine ⟨Int.ofNat (o idx) % n, ?_, ?_, ?_⟩
  · unfold randint
    rw [if_neg (by omega), if_neg (by omega)]
  · exact Int.emod_nonneg _ (by omega)
  · exact Int.emod_lt_of_pos _ (by omega)

/-- Witness for C7 at `n = 3` with a concrete oracle. -/
theorem c7_randint_witness :
    ∃ r, randint (fun _ => 7) 0 3 = some (r, 0 + 1) ∧ 0 ≤ r ∧ r < 3 :=
  (c7_randint_contract (fun _ => 7) 0).2.2 3 (by decide)

/-- C8: a word-boundary or non-word-boundary node panics with the
    unsupported-construct message and leaves the output buffer exactly as
    it was — no characters are emitted. -/
theorem c8_word_boundary_panics (o : Nat → Nat) (ub : Int) (w : List Int) (idx : Nat)
    (sub : List Regexp) (ru : List Int) (mn mx : Int) :
    GenString o ub w idx (.mk .OpWordBoundary sub ru mn mx)
      = (w, idx, .panicked ("regen: word boundaries not supported yet")) ∧
    GenString o ub w idx (.mk .OpNoWordBoundary sub ru mn mx)
      = (w, idx, .panicked ("regen: word boundaries not supported yet")) := by
  constructor <;> simp [GenString]

/-- C3: for a character-class node whose flattened range list satisfies
    the parser invariant (pairs with `lo ≤ hi`, sorted and disjoint) and
    whose total size is `S = sum (hi - lo + 1)`, the generator draws one
    ordinal uniformly in `[0, S)` (one `randint S` call), locates its
    range by the linear scan and emits exactly that single character; and
    each class member is hit by exactly one of the `S` equally likely
    ordinals, so each member is selected with probability `1/S`
    (proportional to range width, not per range). -/
theorem c3_charclass_uniform (rs : List Int) (S : Int)
    (hP : ClassPairs rs = true) (hSort : ClassSorted rs = true)
    (hne : rs ≠ []) (hS : classSum rs = some S) :
    (∀ (o : Nat → Nat) (ub : Int) (w : List Int) (idx : Nat)
       (sub : List Regexp) (mn mx : Int),
      ∃ nth c idx1,
        randint o idx S = some (nth, idx1) ∧ 0 ≤ nth ∧ nth < S ∧
        classScan nth rs = some c ∧
        GenString o ub w idx (.mk .OpCharClass sub rs mn mx) = (w ++ [c], idx1, .ok)) ∧
    (∀ c : Int, inClass c rs = true →
      ((Finset.range S.toNat).filter
        (fun k : Nat => classScan (k : Int) rs = some c)).card = 1) := by
  constructor
  · intro o ub w idx sub mn mx
    exact genString_charclass o ub w idx sub mn mx rs S hP hne hS
  · intro c hc
    obtain ⟨k0, hk00, hk0S, hscan0⟩ := classScan_surj rs hP S hS c hc
    rw [Finset.card_eq_one]
    refine ⟨k0.toNat, ?_⟩
    ext m
    simp only [Finset.mem_filter, Finset.mem_range, Finset.mem_singleton]
    constructor
    · rintro ⟨hm, hscanm⟩
      have := classScan_inj rs hP hSort (m : Int) k0 c
        (by omega) hk00 hscanm hscan0
      omega
    · rintro rfl
      refine ⟨by omega, ?_⟩
      rw [show ((k0.toNat : Int)) = k0 by omega]
      exact hscan0

/-- Witness for C3 on the example class from the spec, `[(a,c),(x,x)]`
    (`[97,99,120,120]`, 4 members): the generator emits one drawn member,
    and the member `b` (98) is selected by exactly one of the 4 ordinals. -/
theorem c3_charclass_witness :
    (∃ nth c idx1,
      randint (fun _ => 2) 0 4 = some (nth, idx1) ∧ 0 ≤ nth ∧ nth < 4 ∧
      classScan nth [97, 99, 120, 120] = some c ∧
      GenString (fun _ => 2) 32 [] 0 (.mk .OpCharClass [] [97, 99, 120, 120] 0 0)
        = ([] ++ [c], idx1, .ok)) ∧
    ((Finset.range (4 : Int).toNat).filter
      (fun k : Nat => classScan (k : Int) [97, 99, 120, 120] = some 98)).card = 1 :=
  ⟨(c3_charclass_uniform [97, 99, 120, 120] 4 (by decide) (by decide) (by decide)
      (by decide)).1 (fun _ => 2) 32 [] 0 [] 0 0,
   (c3_charclass_uniform [97, 99, 120, 120] 4 (by decide) (by decide) (by decide)
      (by decide)).2 98 (by decide)⟩

/-- C10: for a non-empty class whose pairs are well-formed (`lo ≤ hi`), the
    scan always finds the range of the drawn ordinal and emits one character —
    the `panic("unreachable")` branch is not reached; for the empty rune
    list the scan loop body never runs and that branch is reached. -/
theorem c10_class_scan_safety :
    (∀ (rs : List Int) (S : Int), ClassPairs rs = true → rs ≠ [] →
      classSum rs = some S →
      ∀ (o : Nat → Nat) (ub : Int) (w : List Int) (idx : Nat)
        (sub : List Regexp) (mn mx : Int),
        ∃ c idx1,
          GenString o ub w idx (.mk .OpCharClass sub rs mn mx) = (w ++ [c], idx1, .ok)) ∧
    (∀ (o : Nat → Nat) (ub : Int) (w : List Int) (idx : Nat)
       (sub : List Regexp) (mn mx : Int),
      GenString o ub w idx (.mk .OpCharClass sub [] mn mx)
        = (w, idx, .panicked ("unreachable"))) := by
  constructor
  · intro rs S hP hne hS o ub w idx sub mn mx
    obtain ⟨nth, c, idx1, -, -, -, -, hgen⟩ :=
      genString_charclass o ub w idx sub mn mx rs S hP hne hS
    exact ⟨c, idx1, hgen⟩
  · intro o ub w idx sub mn mx
    simp [GenString, classSum, randint, classScan]

/-- Witness for C10: on the class `[97,99,120,120]` with a concrete oracle
    the scan emits a character and returns Continue. -/
theorem c10_class_scan_witness :
    ∃ c idx1,
      GenString (fun _ => 9) 32 [] 0 (.mk .OpCharClass [] [97, 99, 120, 120] 0 0)
        = ([] ++ [c], idx1, .ok) :=
  c10_class_scan_safety.1 [97, 99, 120, 120] 4 (by decide) (by decide) (by decide)
    (fun _ => 9) 32 [] 0 [] 0 0

/-- Repeating a single literal child `sz` times appends `sz` copies of
    its rune sequence and returns a nil error. -/
theorem genRep_literal (o : Nat → Nat) (ub : Int) (s : List Int) :
    ∀ (sz : Nat) (w : List Int) (idx : Nat),
      ∃ t, genRep o ub w idx sz [Regexp.mk .OpLiteral [] s 0 0] = (w ++ t, idx, .ok) ∧
        t.length = sz * s.length := by
  intro sz
  induction sz with
  | zero => exact fun w idx => ⟨[], by simp [genRep], by simp⟩
  | succ sz ih =>
    intro w idx
    obtain ⟨t, ht, hlen⟩ := ih (w ++ s) idx
    refine ⟨s ++ t, ?_, ?_⟩
    · have hstep : genSub o ub w idx [Regexp.mk .OpLiteral [] s 0 0]
          = (w ++ s, idx, .ok) := by
        simp [genSub, GenString]
      simp only [genRep, hstep]
      rw [ht, List.append_assoc]
    · simp [hlen]
      ring

/-- C4: for a bounded-repeat node `{m,n}` (with the parser invariant that
    the bounds are sane), the chosen iteration count `m + c` lies in
    `[m, N]` where `N = n` when `n ≥ 0` (here: `n ≠ -1`) and
    `N = m + maxUnboundedRepeat` when `n = -1`; consequently a repeat with
    `min = 2, max = 4` over a literal always emits between 2 and 4 copies
    of it — never fewer, never more. -/
theorem c4_repeat_bounds :
    (∀ (o : Nat → Nat) (ub : Int) (sub : List Regexp) (ru : List Int)
       (mn mx : Int) (w : List Int) (idx : Nat),
      mn ≤ (if mx = -1 then mn + ub else mx) →
      ∃ c idx1,
        randint o idx ((if mx = -1 then mn + ub else mx) - mn + 1) = some (c, idx1) ∧
        0 ≤ c ∧ mn + c ≤ (if mx = -1 then mn + ub else mx) ∧
        GenString o ub w idx (.mk .OpRepeat sub ru mn mx)
          = genRep o ub w idx1 (mn + c).toNat sub) ∧
    (∀ (o : Nat → Nat) (w : List Int) (idx : Nat) (s : List Int),
      ∃ sz idx1 t,
        (sz = 2 ∨ sz = 3 ∨ sz = 4) ∧
        GenString o 32 w idx
            (.mk .OpRepeat [.mk .OpLiteral [] s 0 0] [] 2 4) = (w ++ t, idx1, .ok) ∧
        t.length = sz * s.length) := by
  have part1 : ∀ (o : Nat → Nat) (ub : Int) (sub : List Regexp) (ru : List Int)
      (mn mx : Int) (w : List Int) (idx : Nat),
      mn ≤ (if mx = -1 then mn + ub else mx) →
      ∃ c idx1,
        randint o idx ((if mx = -1 then mn + ub else mx) - mn + 1) = some (c, idx1) ∧
        0 ≤ c ∧ mn + c ≤ (if mx = -1 then mn + ub else mx) ∧
        GenString o ub w idx (.mk .OpRepeat sub ru mn mx)
          = genRep o ub w idx1 (mn + c).toNat sub := by
    intro o ub sub ru mn mx w idx hmn
    obtain ⟨c, idx1, hrand, h0, hlt⟩ :=
      randint_range o idx ((if mx = -1 then mn + ub else mx) - mn + 1) (by omega)
    exact ⟨c, idx1, hrand, h0, by omega, by simp [GenString, hrand]⟩
  refine ⟨part1, ?_⟩
  intro o w idx s
  obtain ⟨c, idx1, hrand, h0, hle, hgen⟩ :=
    part1 o 32 [.mk .OpLiteral [] s 0 0] [] 2 4 w idx (by norm_num)
  rw [if_neg (by norm_num)] at hle
  obtain ⟨t, ht, hlen⟩ := genRep_literal o 32 s ((2 + c).toNat) w idx1
  refine ⟨(2 + c).toNat, idx1, t, by omega, ?_, hlen⟩
  rw [hgen, ht]

/-- Witness for C4: with a concrete oracle the bounded repeat `{2,4}`
    draws a count in range. -/
theorem c4_repeat_witness :
    ∃ c idx1,
      randint (fun _ => 5) 0 ((if (4 : Int) = -1 then 2 + 32 else 4) - 2 + 1)
        = some (c, idx1) ∧
      0 ≤ c ∧ 2 + c ≤ (if (4 : Int) = -1 then 2 + 32 else 4) ∧
      GenString (fun _ => 5) 32 [] 0
          (.mk .OpRepeat [.mk .OpLiteral [] [120] 0 0] [] 2 4)
        = genRep (fun _ => 5) 32 [] idx1 (2 + c).toNat [.mk .OpLiteral [] [120] 0 0] :=
  c4_repeat_bounds.1 (fun _ => 5) 32 [.mk .OpLiteral [] [120] 0 0] [] 2 4 [] 0
    (by norm_num)

/-- The quest coin flip: selector value `v < 0xFFFFFFFF` generates the
    child exactly when `v > 0x7FFFFFFF`. -/
theorem questSelects_iff (v : Nat) (hv : v < 4294967295) :
    questSelects v ↔ 2147483648 ≤ v := by
  have hcast : Int.ofNat v = (v : Int) := rfl
  have hrand : randint (fun _ => v) 0 4294967295 = some ((v : Int), 1) := by
    unfold randint
    rw [if_neg (by omega), if_neg (by omega), hcast,
      Int.emod_eq_of_lt (by omega) (by omega)]
  unfold questSelects questNode
  by_cases hc : (2147483647 : Int) < (v : Int)
  · rw [show GenString (fun _ => v) 32 [] 0
        (.mk .OpQuest [.mk .OpLiteral [] [120] 0 0] [] 0 0) = ([120], 1, .ok) from by
      simp [GenString, hrand, hc, genSub]]
    exact iff_of_true rfl (by omega)
  · rw [show GenString (fun _ => v) 32 [] 0
        (.mk .OpQuest [.mk .OpLiteral [] [120] 0 0] [] 0 0) = ([], 1, .ok) from by
      simp [GenString, hrand, hc, genSub]]
    exact iff_of_false (by simp) (by omega)

/-- The set of selector values that generate the child is the top half-open
    interval of `[0, 0xFFFFFFFF)`. -/
theorem questFilter_eq :
    (Finset.range 4294967295).filter (fun v => questSelects v)
      = Finset.Ico 2147483648 4294967295 := by
  ext v
  simp only [Finset.mem_filter, Finset.mem_range, Finset.mem_Ico]
  constructor
  · rintro ⟨hvN, hsel⟩
    exact ⟨(questSelects_iff v hvN).1 hsel, hvN⟩
  · rintro ⟨hge, hvN⟩
    exact ⟨hvN, (questSelects_iff v hvN).2 hge⟩

/-- The complementary set of selector values that emit nothing. -/
theorem questFilterNot_eq :
    (Finset.range 4294967295).filter (fun v => ¬ questSelects v)
      = Finset.range 2147483648 := by
  ext v
  simp only [Finset.mem_filter, Finset.mem_range]
  constructor
  · rintro ⟨hvN, hsel⟩
    by_contra hge
    exact hsel ((questSelects_iff v hvN).2 (by omega))
  · intro hlt
    refine ⟨by omega, fun hsel => ?_⟩
    have := (questSelects_iff v (by omega)).1 hsel
    omega

/-- C6 counterexample: the zero-or-one decision is NOT a coin flip with
    probability exactly 1/2 — the selector has 4294967295 (odd) equally
    likely values in `[0, 0xFFFFFFFF)`, and the set of values that
    generate the children is not exactly half of them. -/
theorem c6_quest_not_exact_half :
    ¬ (2 * ((Finset.range 4294967295).filter (fun v => questSelects v)).card
        = 4294967295) := by
  rw [questFilter_eq, Nat.card_Ico]
  omega

/-- C6 (amended): of the 4294967295 equally likely selector values,
    2147483647 generate the children (in sequence, propagating Stop/error
    immediately) and 2147483648 emit nothing — one short of an exact
    coin flip; the branch condition is `result > 0x7FFFFFFF` on a draw
    uniform over `[0, 0xFFFFFFFF)`. -/
theorem c6_amended_quest_near_half :
    ((Finset.range 4294967295).filter (fun v => questSelects v)).card = 2147483647 ∧
    ((Finset.range 4294967295).filter (fun v => ¬ questSelects v)).card = 2147483648 ∧
    (∀ (o : Nat → Nat) (ub : Int) (w : List Int) (idx : Nat) (sub : List Regexp)
       (ru : List Int) (mn mx : Int),
      ∃ r idx1,
        randint o idx 4294967295 = some (r, idx1) ∧ 0 ≤ r ∧ r < 4294967295 ∧
        GenString o ub w idx (.mk .OpQuest sub ru mn mx)
          = (if 2147483647 < r then genSub o ub w idx1 sub else (w, idx1, .ok))) := by
  refine ⟨?_, ?_, ?_⟩
  · rw [questFilter_eq, Nat.card_Ico]
  · rw [questFilterNot_eq, Finset.card_range]
  · intro o ub w idx sub ru mn mx
    obtain ⟨r, idx1, hrand, h0, hlt⟩ := randint_range o idx 4294967295 (by omega)
    exact ⟨r, idx1, hrand, h0, hlt, by simp [GenString, hrand]⟩

end Regen
